import Mathlib

/-!
# Verification of the issuescout aggregation, pagination and interaction logic

This file gives a shallow embedding of the logic in `src/app/page.tsx` of the
issuescout repository and proves the specified properties about it.

Strings are modelled as Lean `String` and, where character-level processing is
needed (JavaScript `split`, `trim`, `replace`), the JavaScript operations are
embedded as recursive functions over `List Char` (the `data` field of `String`).
The JavaScript object `Record<string, {count, url}>` used by the aggregation is
modelled as an insertion-ordered association list, which matches the
`Object.entries` enumeration order for the (non array-index) keys produced here.
`Array.prototype.sort` with the comparator `(a, b) => b.count - a.count` is
required by ECMAScript 2019 to be a stable sort, hence it is embedded as a
stable insertion sort with respect to descending `count`.
-/

namespace IssueScout

/-- An issue record returned by the search API; only `repository_url` is consumed. -/
structure Issue where
  repository_url : String
deriving DecidableEq

/-- The value stored per repository key in the aggregation record. -/
structure RepoVal where
  count : Nat
  url : String
deriving DecidableEq

/-- The `Repo` row type of the source: `{ repo: string, count: number, url: string }`. -/
structure Repo where
  repo : String
  count : Nat
  url : String
deriving DecidableEq

/-- JavaScript `String.prototype.split` with a one-character separator,
over the character list. `"".split(s)` is `[""]`, empty segments are kept. -/
def jsSplit (sep : Char) : List Char → List (List Char)
  | [] => [[]]
  | c :: cs =>
    let rest := jsSplit sep cs
    if c = sep then [] :: rest
    else
      match rest with
      | r :: rs => (c :: r) :: rs
      | [] => [[c]]

/-- JavaScript `String.prototype.trim`: drop whitespace from both ends. -/
def jsTrim (s : List Char) : List Char :=
  ((s.dropWhile Char.isWhitespace).reverse.dropWhile Char.isWhitespace).reverse

/-- JavaScript `String.prototype.replace` with a plain string pattern:
replace only the first (leftmost) occurrence of `pat`; if `pat` does not
occur, the string is unchanged. -/
def jsReplaceAux (pat repl : List Char) : List Char → List Char
  | [] => if pat.isEmpty then repl else []
  | c :: cs =>
    if pat.isPrefixOf (c :: cs) then repl ++ (c :: cs).drop pat.length
    else c :: jsReplaceAux pat repl cs

/-- JavaScript `url.replace(pat, repl)` on `String`s (first occurrence only). -/
def jsReplace (s pat repl : String) : String :=
  String.mk (jsReplaceAux pat.data repl.data s.data)

/-- Join a list of character lists with a one-character separator
(JavaScript `Array.prototype.join` with a one-character string). -/
def joinSep (sep : Char) : List (List Char) → List Char
  | [] => []
  | [x] => x
  | x :: y :: xs => x ++ sep :: joinSep sep (y :: xs)

/-- Source line 50: `issue.repository_url.split('/').slice(-2).join('/')`.
`slice(-2)` keeps the last `min 2 n` elements, i.e. drops `length - 2` (`Nat`
subtraction). -/
def repoFullName (url : String) : String :=
  let parts := jsSplit '/' url.data
  String.mk (joinSep '/' (parts.drop (parts.length - 2)))

/-- Source line 54: `issue.repository_url.replace('api.github.com/repos', 'github.com')`. -/
def webUrlOf (url : String) : String :=
  jsReplace url "api.github.com/repos" "github.com"

/-- Lookup in the association list modelling the JavaScript object
`repoIssueCount` (property access `repoIssueCount[k]`). -/
def lookupRepo (k : String) : List (String × RepoVal) → Option RepoVal
  | [] => none
  | kv :: m => if kv.1 = k then some kv.2 else lookupRepo k m

/-- Source line 57: `repoIssueCount[repoFullName].count++` on the entry with key `k`. -/
def incrCount (k : String) : List (String × RepoVal) → List (String × RepoVal)
  | [] => []
  | kv :: m =>
    if kv.1 = k then (kv.1, RepoVal.mk (kv.2.count + 1) kv.2.url) :: m
    else kv :: incrCount k m

/-- Source lines 50-57, the body of the `forEach` over `data.items`: derive the
key, insert it with count `0` and the rewritten url when unseen (JavaScript
objects append new string keys in insertion order), then increment its count. -/
def processIssue (m : List (String × RepoVal)) (issue : Issue) : List (String × RepoVal) :=
  let k := repoFullName issue.repository_url
  let m1 := match lookupRepo k m with
    | none => m ++ [(k, RepoVal.mk 0 (webUrlOf issue.repository_url))]
    | some _ => m
  incrCount k m1

/-- Source lines 47-58: the aggregation record built by the `forEach` loop. -/
def repoIssueCount (issues : List Issue) : List (String × RepoVal) :=
  issues.foldl processIssue []

/-- Source line 61: `([repo, { count, url }]) => ({ repo, count, url })`. -/
def toRepo (kv : String × RepoVal) : Repo :=
  Repo.mk kv.1 kv.2.count kv.2.url

/-- Stable insertion of one element into a list with respect to descending
`count`: the element goes before the first entry whose count is `≤` its own. -/
def insertRepo (x : Repo) : List Repo → List Repo
  | [] => [x]
  | y :: ys => if y.count ≤ x.count then x :: y :: ys else y :: insertRepo x ys

/-- Source line 62: `.sort((a, b) => b.count - a.count)`. ECMAScript requires
`Array.prototype.sort` to be stable, and a stable sort by descending `count`
is exactly this insertion sort. -/
def sortByCountDesc (l : List Repo) : List Repo :=
  l.foldr insertRepo []

/-- Source lines 60-62: `sortedRepos`. -/
def sortedRepos (issues : List Issue) : List Repo :=
  sortByCountDesc ((repoIssueCount issues).map toRepo)

/-- The aggregation pipeline of the fetch cycle (the spec's `aggregate`). -/
def aggregate (issues : List Issue) : List Repo :=
  sortedRepos issues

/-- Source lines 39-40: split the raw label text on commas, trim each segment,
drop empty segments (`filter(Boolean)`), map to `label:L` and join with `+`. -/
def buildQuery (tags : String) : String :=
  let tagList := ((jsSplit ',' tags.data).map jsTrim).filter (fun t => decide (t ≠ []))
  String.mk (joinSep '+' (tagList.map (fun tag => "label:".data ++ tag)))

/-- Source line 16. -/
def ITEMS_PER_PAGE : Nat := 10

/-- Source line 91: `Math.ceil(repos.length / ITEMS_PER_PAGE)` as `Nat` ceiling
division. -/
def totalPages (repos : List Repo) : Nat :=
  (repos.length + ITEMS_PER_PAGE - 1) / ITEMS_PER_PAGE

/-- Source lines 92-95: `repos.slice((currentPage - 1) * ITEMS_PER_PAGE,
currentPage * ITEMS_PER_PAGE)`; `slice(start, end)` with `0 ≤ start ≤ end` is
`take end` followed by `drop start`. -/
def paginatedRepos (repos : List Repo) (currentPage : Nat) : List Repo :=
  (repos.take (currentPage * ITEMS_PER_PAGE)).drop ((currentPage - 1) * ITEMS_PER_PAGE)

/-- Source line 172: `Math.max(prev - 1, 1)`. -/
def prevPage (p : Nat) : Nat := max (p - 1) 1

/-- Source line 181: `Math.min(prev + 1, totalPages)`. -/
def nextPage (p : Nat) (total : Nat) : Nat := min (p + 1) total

/-- The outcome of the `fetch` + `response.json()` part of one fetch cycle,
abstracting the network: a success carries the parsed `items`, `httpError` is
a response with `!response.ok`, `networkFailure` is any other thrown failure
(with the runtime's message). -/
inductive FetchOutcome where
  | success (items : List Issue)
  | httpError
  | networkFailure (msg : String)
deriving DecidableEq

/-- The component state of `GitHubIssueFinder`. -/
structure AppState where
  tags : String
  repos : List Repo
  loading : Bool
  error : Option String
  currentPage : Nat
deriving DecidableEq

/-- Source line 66, the only user-visible error message. -/
def errorMessage : String := "An error occurred while fetching issues. Please try again."

/-- The `try` block of `fetchIssuesByTags` (source lines 38-64): a non-ok
response throws `Error('Failed to fetch issues')` (line 43); any other failure
propagates the runtime's own error; on success the aggregation runs. -/
def runFetchBody : FetchOutcome → Except String (List Repo)
  | FetchOutcome.httpError => Except.error "Failed to fetch issues"
  | FetchOutcome.networkFailure msg => Except.error msg
  | FetchOutcome.success items => Except.ok (aggregate items)

/-- Source lines 34-70: `setLoading(true)`, `setError(null)`, then the `try`
block; every thrown error lands in the single `catch`, which discards it and
sets the fixed `errorMessage`; `finally` clears `loading`. -/
def fetchIssuesByTags (st : AppState) (outcome : FetchOutcome) : AppState :=
  let st0 : AppState := { st with loading := true, error := none }
  let st1 : AppState :=
    match runFetchBody outcome with
    | Except.ok rs => { st0 with repos := rs }
    | Except.error _ => { st0 with error := some errorMessage }
  { st1 with loading := false }

/-- Source lines 78-82: explicit form submission runs the fetch cycle and
resets the page to 1. -/
def handleSearch (st : AppState) (outcome : FetchOutcome) : AppState :=
  let st1 := fetchIssuesByTags st outcome
  { st1 with currentPage := 1 }

/-- Source lines 84-89 plus the `useEffect` on lines 72-76: a trending-topic
click appends the topic to the tag text (comma-joined, or just the topic when
the text was empty), and the effect re-runs the fetch cycle when the new text
is non-empty. The page index is not touched. -/
def handleTrendingTopicClick (st : AppState) (topic : String) (outcome : FetchOutcome) : AppState :=
  let newTags := if st.tags = "" then topic else st.tags ++ "," ++ topic
  let st1 : AppState := { st with tags := newTags }
  if newTags = "" then st1 else fetchIssuesByTags st1 outcome

/-! ## Specification-side definitions

These follow the wording of the claims and are compared with the embedded code. -/

/-- Spec: the number of input records whose derived identifier is `k`. -/
def countForRepo (k : String) (issues : List Issue) : Nat :=
  (issues.filter (fun i => decide (repoFullName i.repository_url = k))).length

/-- Spec: the first record seen whose derived identifier is `k`. -/
def firstIssueFor (k : String) (issues : List Issue) : Option Issue :=
  issues.find? (fun i => decide (repoFullName i.repository_url = k))

/-- Spec: the distinct elements of a list, keeping the first occurrence of
each, in order of first occurrence. -/
def dedupKeepFirst : List String → List String
  | [] => []
  | k :: ks => k :: dedupKeepFirst (ks.filter (fun x => decide (x ≠ k)))
termination_by l => l.length
decreasing_by
simp only [List.length_cons]
exact Nat.lt_succ_of_le (List.length_filter_le _ _)

/-- Whether `pat` occurs as a contiguous run anywhere in `s`. -/
def occursIn (pat : List Char) : List Char → Bool
  | [] => pat.isEmpty
  | c :: cs => pat.isPrefixOf (c :: cs) || occursIn pat cs

/-- A concrete 25-row ranked list used for the pagination instances. -/
def demoRepos : List Repo :=
  (List.range 25).map (fun n => Repo.mk "r" n "")

/-- A concrete component state used for concrete instances. -/
def stDemo : AppState :=
  AppState.mk "bug" [] false none 1

/-- The three-record input of the spec's aggregation example. -/
def issuesDemo : List Issue :=
  [Issue.mk "https://api.github.com/repos/a/b",
   Issue.mk "https://api.github.com/repos/a/b",
   Issue.mk "https://api.github.com/repos/c/d"]

/-! ## Association-list lemmas -/

theorem lookupRepo_append_of_none {k : String} {m : List (String × RepoVal)}
    (h : lookupRepo k m = none) (l : List (String × RepoVal)) :
    lookupRepo k (m ++ l) = lookupRepo k l := by
  induction m with
  | nil => simp
  | cons kv m ih =>
    by_cases hk : kv.1 = k
    · simp [lookupRepo, hk] at h
    · simp only [List.cons_append, lookupRepo, if_neg hk] at h ⊢
      exact ih h

theorem lookupRepo_append_of_some {k : String} {v : RepoVal} {m : List (String × RepoVal)}
    (h : lookupRepo k m = some v) (l : List (String × RepoVal)) :
    lookupRepo k (m ++ l) = some v := by
  induction m with
  | nil => simp [lookupRepo] at h
  | cons kv m ih =>
    by_cases hk : kv.1 = k
    · simp only [lookupRepo, if_pos hk] at h
      simp only [List.cons_append, lookupRepo, if_pos hk, h]
    · simp only [lookupRepo, if_neg hk] at h
      simp only [List.cons_append, lookupRepo, if_neg hk]
      exact ih h

theorem lookupRepo_incrCount_self {k : String} {m : List (String × RepoVal)} {v : RepoVal}
    (h : lookupRepo k m = some v) :
    lookupRepo k (incrCount k m) = some (RepoVal.mk (v.count + 1) v.url) := by
  induction m with
  | nil => simp [lookupRepo] at h
  | cons kv m ih =>
    by_cases hk : kv.1 = k
    · simp only [lookupRepo, if_pos hk, Option.some.injEq] at h
      simp only [incrCount, if_pos hk, lookupRepo, h]
    · simp only [lookupRepo, if_neg hk] at h
      simp only [incrCount, if_neg hk, lookupRepo]
      exact ih h

theorem lookupRepo_incrCount_ne {k k2 : String} (hne : k2 ≠ k) (m : List (String × RepoVal)) :
    lookupRepo k (incrCount k2 m) = lookupRepo k m := by
  induction m with
  | nil => simp [incrCount]
  | cons kv m ih =>
    by_cases hk : kv.1 = k2
    · have hkk : kv.1 ≠ k := by rw [hk]; exact hne
      simp [incrCount, lookupRepo, hk, hkk, hne]
    · simp [incrCount, lookupRepo, hk, ih]

theorem keys_incrCount (k : String) (m : List (String × RepoVal)) :
    (incrCount k m).map Prod.fst = m.map Prod.fst := by
  induction m with
  | nil => rfl
  | cons kv m ih =>
    by_cases hk : kv.1 = k <;> simp [incrCount, hk, ih]

theorem lookupRepo_eq_none_iff (k : String) (m : List (String × RepoVal)) :
    lookupRepo k m = none ↔ k ∉ m.map Prod.fst := by
  induction m with
  | nil => simp [lookupRepo]
  | cons kv m ih =>
    by_cases hk : kv.1 = k
    · simp [lookupRepo, hk]
    · simp [lookupRepo, hk, ih, Ne.symm hk]

theorem mem_of_lookupRepo {k : String} {v : RepoVal} : ∀ {m : List (String × RepoVal)},
    lookupRepo k m = some v → (k, v) ∈ m := by
  intro m
  induction m with
  | nil => intro h; simp [lookupRepo] at h
  | cons kv m ih =>
    intro h
    obtain ⟨k1, v1⟩ := kv
    by_cases hk : k1 = k
    · subst hk
      simp [lookupRepo] at h
      subst h
      exact List.mem_cons_self _ _
    · simp only [lookupRepo, if_neg hk] at h
      exact List.mem_cons_of_mem _ (ih h)

theorem lookupRepo_of_mem_of_nodup {k : String} {v : RepoVal} {m : List (String × RepoVal)}
    (hm : (k, v) ∈ m) (hnd : (m.map Prod.fst).Nodup) :
    lookupRepo k m = some v := by
  induction m with
  | nil => simp at hm
  | cons kv m ih =>
    obtain ⟨k1, v1⟩ := kv
    simp only [List.map_cons, List.nodup_cons] at hnd
    simp only [List.mem_cons] at hm
    rcases hm with heq | hm
    · injection heq with h1 h2
      subst h1; subst h2
      simp [lookupRepo]
    · have hk : k1 ≠ k := by
        intro hh
        subst hh
        exact hnd.1 (List.mem_map.mpr ⟨(k1, v), hm, rfl⟩)
      simp only [lookupRepo, if_neg hk]
      exact ih hm hnd.2

/-! ## Characterization of the aggregation fold -/

theorem countForRepo_cons (k : String) (i : Issue) (is : List Issue) :
    countForRepo k (i :: is) =
      (if repoFullName i.repository_url = k then 1 else 0) + countForRepo k is := by
  by_cases h : repoFullName i.repository_url = k <;>
    simp [countForRepo, List.filter_cons, h, Nat.add_comm]

theorem firstIssueFor_cons (k : String) (i : Issue) (is : List Issue) :
    firstIssueFor k (i :: is) =
      if repoFullName i.repository_url = k then some i else firstIssueFor k is := by
  by_cases h : repoFullName i.repository_url = k <;>
    simp [firstIssueFor, List.find?_cons, h]

theorem lookupRepo_processIssue_self {i : Issue} {m : List (String × RepoVal)} {k : String}
    (hki : repoFullName i.repository_url = k) :
    lookupRepo k (processIssue m i) =
      match lookupRepo k m with
      | some v => some (RepoVal.mk (v.count + 1) v.url)
      | none => some (RepoVal.mk 1 (webUrlOf i.repository_url)) := by
  cases hm : lookupRepo k m with
  | some v =>
    simp only [processIssue, hki, hm]
    exact lookupRepo_incrCount_self hm
  | none =>
    simp only [processIssue, hki, hm]
    have h2 : lookupRepo k (m ++ [(k, RepoVal.mk 0 (webUrlOf i.repository_url))]) =
        some (RepoVal.mk 0 (webUrlOf i.repository_url)) := by
      rw [lookupRepo_append_of_none hm]
      simp [lookupRepo]
    exact lookupRepo_incrCount_self h2

theorem lookupRepo_processIssue_ne {i : Issue} {m : List (String × RepoVal)} {k : String}
    (hki : repoFullName i.repository_url ≠ k) :
    lookupRepo k (processIssue m i) = lookupRepo k m := by
  cases hm : lookupRepo (repoFullName i.repository_url) m with
  | some v =>
    simp only [processIssue, hm]
    exact lookupRepo_incrCount_ne hki m
  | none =>
    simp only [processIssue, hm]
    rw [lookupRepo_incrCount_ne hki]
    cases hk2 : lookupRepo k m with
    | some w => rw [lookupRepo_append_of_some hk2]
    | none =>
      rw [lookupRepo_append_of_none hk2]
      simp [lookupRepo, hki]

theorem lookupRepo_foldl (issues : List Issue) :
    ∀ (m : List (String × RepoVal)) (k : String),
      lookupRepo k (issues.foldl processIssue m) =
        match lookupRepo k m with
        | some v => some (RepoVal.mk (v.count + countForRepo k issues) v.url)
        | none =>
          match firstIssueFor k issues with
          | some i => some (RepoVal.mk (countForRepo k issues) (webUrlOf i.repository_url))
          | none => none := by
  induction issues with
  | nil =>
    intro m k
    cases h : lookupRepo k m with
    | none => simp [h, countForRepo, firstIssueFor]
    | some v =>
      obtain ⟨c, u⟩ := v
      simp [h, countForRepo]
  | cons i is ih =>
    intro m k
    rw [List.foldl_cons, ih (processIssue m i) k]
    by_cases hki : repoFullName i.repository_url = k
    · rw [lookupRepo_processIssue_self hki]
      cases hm : lookupRepo k m with
      | some v =>
        simp [countForRepo_cons, firstIssueFor_cons, hki, hm, Nat.add_assoc]
      | none =>
        simp [countForRepo_cons, firstIssueFor_cons, hki, hm]
    · rw [lookupRepo_processIssue_ne hki]
      cases hm : lookupRepo k m with
      | some v => simp [countForRepo_cons, firstIssueFor_cons, hki, hm]
      | none => simp [countForRepo_cons, firstIssueFor_cons, hki, hm]

theorem lookupRepo_repoIssueCount (issues : List Issue) (k : String) :
    lookupRepo k (repoIssueCount issues) =
      match firstIssueFor k issues with
      | some i => some (RepoVal.mk (countForRepo k issues) (webUrlOf i.repository_url))
      | none => none := by
  have h := lookupRepo_foldl issues [] k
  simpa [repoIssueCount, lookupRepo] using h

/-! ## Key order of the aggregation record -/

theorem keys_foldl (issues : List Issue) :
    ∀ (m : List (String × RepoVal)),
      (issues.foldl processIssue m).map Prod.fst =
        m.map Prod.fst ++
          dedupKeepFirst ((issues.map (fun i => repoFullName i.repository_url)).filter
            (fun x => decide (x ∉ m.map Prod.fst))) := by
  induction issues with
  | nil => intro m; simp [dedupKeepFirst]
  | cons i is ih =>
    intro m
    rw [List.foldl_cons, ih (processIssue m i)]
    by_cases hk : repoFullName i.repository_url ∈ m.map Prod.fst
    · have hkeys : (processIssue m i).map Prod.fst = m.map Prod.fst := by
        cases hm : lookupRepo (repoFullName i.repository_url) m with
        | none => rw [lookupRepo_eq_none_iff] at hm; exact absurd hk hm
        | some v => simp only [processIssue, hm]; exact keys_incrCount _ _
      rw [hkeys]
      congr 1
      simp [List.filter_cons, hk]
    · have hm : lookupRepo (repoFullName i.repository_url) m = none := by
        rw [lookupRepo_eq_none_iff]; exact hk
      have hkeys : (processIssue m i).map Prod.fst =
          m.map Prod.fst ++ [repoFullName i.repository_url] := by
        simp only [processIssue, hm]
        rw [keys_incrCount]
        simp
      rw [hkeys, List.append_assoc]
      congr 1
      simp only [List.map_cons, List.filter_cons]
      rw [if_pos (by simpa using hk)]
      rw [dedupKeepFirst]
      simp only [List.singleton_append, List.cons.injEq, true_and]
      congr 1
      rw [List.filter_filter]
      apply List.filter_congr
      intro x hx
      by_cases h1 : x = repoFullName i.repository_url
      · simp [h1]
      · by_cases h2 : x ∈ m.map Prod.fst <;> simp [h1, h2]

theorem keys_repoIssueCount (issues : List Issue) :
    (repoIssueCount issues).map Prod.fst =
      dedupKeepFirst (issues.map (fun i => repoFullName i.repository_url)) := by
  have h := keys_foldl issues []
  simp only [repoIssueCount] at h ⊢
  rw [h]
  simp

/-! ## Lemmas about `dedupKeepFirst` -/

theorem dedupKeepFirst_sublist_aux :
    ∀ (n : Nat) (l : List String), l.length ≤ n → (dedupKeepFirst l).Sublist l := by
  intro n
  induction n with
  | zero =>
    intro l h
    have hl : l = [] := List.eq_nil_of_length_eq_zero (Nat.le_zero.mp h)
    subst hl
    simp [dedupKeepFirst]
  | succ n ih =>
    intro l h
    cases l with
    | nil => simp [dedupKeepFirst]
    | cons k ks =>
      rw [dedupKeepFirst]
      refine List.Sublist.cons₂ k ?_
      have hks : ks.length ≤ n := by
        simp only [List.length_cons] at h
        omega
      exact List.Sublist.trans
        (ih _ (le_trans (List.length_filter_le _ _) hks)) (List.filter_sublist ks)

theorem dedupKeepFirst_sublist (l : List String) : (dedupKeepFirst l).Sublist l :=
  dedupKeepFirst_sublist_aux l.length l (le_refl _)

theorem dedupKeepFirst_nodup_aux :
    ∀ (n : Nat) (l : List String), l.length ≤ n → (dedupKeepFirst l).Nodup := by
  intro n
  induction n with
  | zero =>
    intro l h
    have hl : l = [] := List.eq_nil_of_length_eq_zero (Nat.le_zero.mp h)
    subst hl
    simp [dedupKeepFirst]
  | succ n ih =>
    intro l h
    cases l with
    | nil => simp [dedupKeepFirst]
    | cons k ks =>
      rw [dedupKeepFirst]
      have hks : ks.length ≤ n := by
        simp only [List.length_cons] at h
        omega
      refine List.nodup_cons.mpr ⟨?_, ih _ (le_trans (List.length_filter_le _ _) hks)⟩
      intro hmem
      have hmem2 := (dedupKeepFirst_sublist _).subset hmem
      simp [List.mem_filter] at hmem2

theorem dedupKeepFirst_nodup (l : List String) : (dedupKeepFirst l).Nodup :=
  dedupKeepFirst_nodup_aux l.length l (le_refl _)

/-! ## The stable descending sort -/

theorem perm_insertRepo (x : Repo) (l : List Repo) : (insertRepo x l).Perm (x :: l) := by
  induction l with
  | nil => simp [insertRepo]
  | cons y ys ih =>
    by_cases h : y.count ≤ x.count
    · simp [insertRepo, h]
    · simp only [insertRepo, if_neg h]
      exact (ih.cons y).trans (List.Perm.swap x y ys)

theorem perm_sortByCountDesc (l : List Repo) : (sortByCountDesc l).Perm l := by
  induction l with
  | nil => simp [sortByCountDesc]
  | cons x l ih =>
    simp only [sortByCountDesc, List.foldr_cons] at ih ⊢
    exact (perm_insertRepo x _).trans (ih.cons x)

theorem pairwise_insertRepo {x : Repo} {l : List Repo}
    (h : List.Pairwise (fun a b => b.count ≤ a.count) l) :
    List.Pairwise (fun a b => b.count ≤ a.count) (insertRepo x l) := by
  induction l with
  | nil => simp [insertRepo]
  | cons y ys ih =>
    rcases List.pairwise_cons.mp h with ⟨hy, hys⟩
    by_cases hc : y.count ≤ x.count
    · simp only [insertRepo, if_pos hc]
      refine List.pairwise_cons.mpr ⟨?_, h⟩
      intro z hz
      rcases List.mem_cons.mp hz with rfl | hz2
      · exact hc
      · exact le_trans (hy z hz2) hc
    · simp only [insertRepo, if_neg hc]
      refine List.pairwise_cons.mpr ⟨?_, ih hys⟩
      intro z hz
      rcases List.mem_cons.mp ((perm_insertRepo x ys).mem_iff.mp hz) with rfl | hz3
      · exact le_of_not_le hc
      · exact hy z hz3

theorem pairwise_sortByCountDesc (l : List Repo) :
    List.Pairwise (fun a b => b.count ≤ a.count) (sortByCountDesc l) := by
  induction l with
  | nil => simp [sortByCountDesc]
  | cons x l ih =>
    simp only [sortByCountDesc, List.foldr_cons] at ih ⊢
    exact pairwise_insertRepo ih

theorem filter_insertRepo (c : Nat) (x : Repo) (l : List Repo) :
    (insertRepo x l).filter (fun r => decide (r.count = c)) =
      if x.count = c then x :: l.filter (fun r => decide (r.count = c))
      else l.filter (fun r => decide (r.count = c)) := by
  induction l with
  | nil => by_cases hx : x.count = c <;> simp [insertRepo, List.filter_cons, hx]
  | cons y ys ih =>
    by_cases hc : y.count ≤ x.count
    · have hins : insertRepo x (y :: ys) = x :: y :: ys := by
        simp only [insertRepo]
        rw [if_pos hc]
      rw [hins, List.filter_cons, List.filter_cons]
      by_cases hx : x.count = c <;> by_cases hy : y.count = c <;>
        simp [List.filter_cons, hx, hy]
    · have hins : insertRepo x (y :: ys) = y :: insertRepo x ys := by
        simp only [insertRepo]
        rw [if_neg hc]
      have hyx : x.count < y.count := Nat.lt_of_not_le hc
      rw [hins, List.filter_cons, ih, List.filter_cons]
      by_cases hx : x.count = c
      · have hy : ¬ y.count = c := by omega
        simp [hx, hy]
      · by_cases hy : y.count = c <;> simp [hx, hy]

theorem filter_sortByCountDesc (c : Nat) (l : List Repo) :
    (sortByCountDesc l).filter (fun r => decide (r.count = c)) =
      l.filter (fun r => decide (r.count = c)) := by
  induction l with
  | nil => simp [sortByCountDesc]
  | cons x l ih =>
    simp only [sortByCountDesc, List.foldr_cons] at ih ⊢
    rw [filter_insertRepo]
    by_cases hx : x.count = c <;> simp [List.filter_cons, hx, ih]

theorem aggregate_perm (issues : List Issue) :
    (aggregate issues).Perm ((repoIssueCount issues).map toRepo) := by
  simp only [aggregate, sortedRepos]
  exact perm_sortByCountDesc _

/-! ## State-machine and string helper lemmas -/

theorem fetch_preserves_tags_page (st : AppState) (outcome : FetchOutcome) :
    (fetchIssuesByTags st outcome).tags = st.tags ∧
    (fetchIssuesByTags st outcome).currentPage = st.currentPage := by
  cases h : runFetchBody outcome <;> simp [fetchIssuesByTags, h]

theorem jsSplit_of_not_mem {sep : Char} : ∀ {s : List Char}, sep ∉ s → jsSplit sep s = [s] := by
  intro s
  induction s with
  | nil => intro h; simp [jsSplit]
  | cons c cs ih =>
    intro h
    simp only [List.mem_cons, not_or] at h
    have hcs : ¬ c = sep := fun hh => h.1 hh.symm
    simp [jsSplit, hcs, ih h.2]

theorem jsReplaceAux_of_not_occurs {pat repl : List Char} :
    ∀ {s : List Char}, occursIn pat s = false → jsReplaceAux pat repl s = s := by
  intro s
  induction s with
  | nil =>
    intro h
    simp only [occursIn] at h
    simp [jsReplaceAux, h]
  | cons c cs ih =>
    intro h
    simp only [occursIn, Bool.or_eq_false_iff] at h
    simp [jsReplaceAux, h.1, ih h.2]

theorem repoFullName_no_slash {url : String} (h : '/' ∉ url.data) :
    repoFullName url = url := by
  simp only [repoFullName]
  rw [jsSplit_of_not_mem h]
  rfl

theorem webUrlOf_of_not_occurs {url : String}
    (h : occursIn "api.github.com/repos".data url.data = false) :
    webUrlOf url = url := by
  simp only [webUrlOf, jsReplace]
  rw [jsReplaceAux_of_not_occurs h]

/-! ## Claim theorems -/

/-- C1: for every input sequence of issue records, `aggregate` produces one
entry per distinct repository identifier (the last two `/`-delimited segments
of the record's repository-URL joined by `/`); the entry's count equals the
number of input records with that identifier, and its webUrl is the
repository-URL of the first record seen for that identifier with the substring
`api.github.com/repos` replaced by `github.com`. -/
theorem C1_aggregate_characterization (issues : List Issue) (r : Repo)
    (hr : r ∈ aggregate issues) :
    ((aggregate issues).map Repo.repo).Nodup ∧
    (∀ k : String, (∃ i ∈ issues, repoFullName i.repository_url = k) ↔
      (∃ r2 ∈ aggregate issues, r2.repo = k)) ∧
    r.count = countForRepo r.repo issues ∧
    (∃ i : Issue, firstIssueFor r.repo issues = some i ∧
      r.url = webUrlOf i.repository_url) := by
  have hperm := aggregate_perm issues
  have hnd : ((repoIssueCount issues).map Prod.fst).Nodup := by
    rw [keys_repoIssueCount]
    exact dedupKeepFirst_nodup _
  refine ⟨?_, ?_, ?_⟩
  · have hmapmap : ((repoIssueCount issues).map toRepo).map Repo.repo =
        (repoIssueCount issues).map Prod.fst := by
      rw [List.map_map]
      rfl
    exact ((hperm.map Repo.repo).nodup_iff).mpr (hmapmap ▸ hnd)
  · intro k
    constructor
    · rintro ⟨i, hi, hik⟩
      cases hfi : firstIssueFor k issues with
      | none =>
        simp only [firstIssueFor, List.find?_eq_none] at hfi
        exact absurd (by simp [hik] : decide (repoFullName i.repository_url = k) = true)
          (hfi i hi)
      | some i0 =>
        have hlook := lookupRepo_repoIssueCount issues k
        rw [hfi] at hlook
        have hmem := mem_of_lookupRepo hlook
        refine ⟨toRepo (k, RepoVal.mk (countForRepo k issues) (webUrlOf i0.repository_url)),
          hperm.mem_iff.mpr (List.mem_map.mpr ⟨_, hmem, rfl⟩), rfl⟩
    · rintro ⟨r2, hr2, hrk⟩
      obtain ⟨kv, hkv, hkvr⟩ := List.mem_map.mp (hperm.mem_iff.mp hr2)
      obtain ⟨k0, v0⟩ := kv
      have hk0 : k0 = k := by rw [← hrk, ← hkvr]; rfl
      subst hk0
      have hlook : lookupRepo k0 (repoIssueCount issues) = some v0 :=
        lookupRepo_of_mem_of_nodup hkv hnd
      have hchar := lookupRepo_repoIssueCount issues k0
      rw [hlook] at hchar
      cases hfi : firstIssueFor k0 issues with
      | none => rw [hfi] at hchar; simp at hchar
      | some i0 =>
        have hi0 : i0 ∈ issues := List.mem_of_find?_eq_some hfi
        have hp := List.find?_some hfi
        exact ⟨i0, hi0, of_decide_eq_true hp⟩
  · obtain ⟨kv, hkv, hkvr⟩ := List.mem_map.mp (hperm.mem_iff.mp hr)
    obtain ⟨k0, v0⟩ := kv
    have hlook : lookupRepo k0 (repoIssueCount issues) = some v0 :=
      lookupRepo_of_mem_of_nodup hkv hnd
    have hchar := lookupRepo_repoIssueCount issues k0
    rw [hlook] at hchar
    cases hfi : firstIssueFor k0 issues with
    | none => rw [hfi] at hchar; simp at hchar
    | some i0 =>
      rw [hfi] at hchar
      have hv0 : v0 = RepoVal.mk (countForRepo k0 issues) (webUrlOf i0.repository_url) := by
        injection hchar
      subst hkvr
      subst hv0
      exact ⟨rfl, i0, hfi, rfl⟩

/-- C1 witness: on the spec's three-record example, the entry for `a/b` has
count 2; the membership hypothesis is discharged by computation. -/
theorem C1_aggregate_characterization_witness :
    (Repo.mk "a/b" 2 "https://github.com/a/b").count = countForRepo "a/b" issuesDemo :=
  (C1_aggregate_characterization issuesDemo (Repo.mk "a/b" 2 "https://github.com/a/b")
    (by decide)).2.2.1

/-- C2: the ranked result list is sorted by count in descending order; among
entries of equal count the order is the order of the pre-sort aggregation
record (the sort is stable), and that record lists the repository identifiers
in order of first occurrence in the input. -/
theorem C2_ranked_sorted_stable (issues : List Issue) :
    List.Pairwise (fun a b => b.count ≤ a.count) (aggregate issues) ∧
    (∀ c : Nat, (aggregate issues).filter (fun r => decide (r.count = c)) =
      ((repoIssueCount issues).map toRepo).filter (fun r => decide (r.count = c))) ∧
    (repoIssueCount issues).map Prod.fst =
      dedupKeepFirst (issues.map (fun i => repoFullName i.repository_url)) := by
  refine ⟨?_, ?_, keys_repoIssueCount issues⟩
  · simp only [aggregate, sortedRepos]
    exact pairwise_sortByCountDesc _
  · intro c
    simp only [aggregate, sortedRepos]
    exact filter_sortByCountDesc c _

/-- C3: the query builder splits the raw label text on commas, trims each
segment, drops empty segments, maps each label to `label:L` and joins with
`+`; an empty or all-whitespace input yields the empty query string, and the
example inputs evaluate as specified. -/
theorem C3_buildQuery_spec :
    (∀ s : String, (∀ t ∈ jsSplit ',' s.data, jsTrim t = []) → buildQuery s = "") ∧
    buildQuery "hacktoberfest, good-first-issue" = "label:hacktoberfest+label:good-first-issue" ∧
    buildQuery "" = "" ∧
    buildQuery "  ,  ,bug" = "label:bug" := by
  refine ⟨?_, by decide, by decide, by decide⟩
  intro s h
  have hnil : ((jsSplit ',' s.data).map jsTrim).filter (fun t => decide (t ≠ [])) = [] := by
    rw [List.filter_eq_nil_iff]
    intro a ha
    obtain ⟨t, ht, rfl⟩ := List.mem_map.mp ha
    simp [h t ht]
  simp only [buildQuery, hnil, List.map_nil, joinSep]

/-- C3 witness: an all-whitespace input yields the empty query string. -/
theorem C3_buildQuery_spec_witness : buildQuery "  ,  " = "" :=
  C3_buildQuery_spec.1 "  ,  " (by decide)

/-- C4: for page index `p ≥ 1` pagination returns the half-open slice
`[(p-1)*10, p*10)` clamped to the list bounds (characterized element-wise),
`totalPages` is the ceiling of `length / 10` (characterized by the two ceiling
inequalities), and on a 25-row list: 3 total pages, page 1 is rows 0-9, page 3
is the 5 rows 20-24. -/
theorem C4_pagination (repos : List Repo) (p : Nat) (hp : 1 ≤ p) :
    (∀ i : Nat, i < ITEMS_PER_PAGE →
      (paginatedRepos repos p)[i]? = repos[(p - 1) * ITEMS_PER_PAGE + i]?) ∧
    (∀ i : Nat, ITEMS_PER_PAGE ≤ i → (paginatedRepos repos p)[i]? = none) ∧
    repos.length ≤ totalPages repos * ITEMS_PER_PAGE ∧
    totalPages repos * ITEMS_PER_PAGE < repos.length + ITEMS_PER_PAGE ∧
    totalPages demoRepos = 3 ∧
    paginatedRepos demoRepos 1 = demoRepos.take 10 ∧
    paginatedRepos demoRepos 3 = demoRepos.drop 20 ∧
    (paginatedRepos demoRepos 3).length = 5 := by
  refine ⟨?_, ?_, ?_, ?_, by decide, by decide, by decide, by decide⟩
  · intro i hi
    simp only [paginatedRepos]
    rw [List.getElem?_drop, List.getElem?_take, if_pos]
    simp only [ITEMS_PER_PAGE] at hi ⊢
    omega
  · intro i hi
    apply List.getElem?_eq_none
    simp only [paginatedRepos, List.length_drop, List.length_take, ITEMS_PER_PAGE] at hi ⊢
    omega
  · simp only [totalPages, ITEMS_PER_PAGE]
    omega
  · simp only [totalPages, ITEMS_PER_PAGE]
    omega

/-- C4 witness: on the 25-row list, page 2 at offset 3 is row 13. -/
theorem C4_pagination_witness :
    (paginatedRepos demoRepos 2)[3]? = demoRepos[13]? :=
  (C4_pagination demoRepos 2 (by decide)).1 3 (by decide)

/-- C5 counterexample: the user-visible message after a non-success HTTP
status is identical to the one after a network failure (both are the single
generic message), and it is not the `Failed to fetch issues` text, refuting
the claim that the two failure kinds surface two distinct messages. -/
theorem C5_counterexample :
    (fetchIssuesByTags stDemo FetchOutcome.httpError).error =
      (fetchIssuesByTags stDemo (FetchOutcome.networkFailure "TypeError: fetch failed")).error ∧
    (fetchIssuesByTags stDemo FetchOutcome.httpError).error = some errorMessage ∧
    (fetchIssuesByTags stDemo FetchOutcome.httpError).error ≠ some "Failed to fetch issues" := by
  refine ⟨rfl, rfl, ?_⟩
  decide

/-- C5 (amended): both a non-success HTTP status and a network/parse failure
surface the same single fixed user-visible message `An error occurred while
fetching issues. Please try again.`; the `Failed to fetch issues` error is
thrown internally on a non-success status but is caught by the same handler
and never surfaced. -/
theorem C5_amended_single_message (st : AppState) (msg : String) :
    (fetchIssuesByTags st FetchOutcome.httpError).error = some errorMessage ∧
    (fetchIssuesByTags st (FetchOutcome.networkFailure msg)).error = some errorMessage ∧
    runFetchBody FetchOutcome.httpError = Except.error "Failed to fetch issues" :=
  ⟨rfl, rfl, rfl⟩

/-- C6: a failed fetch cycle (non-success status or network failure) leaves
the stored result list unchanged; results are replaced (with the new
aggregation) only on success. -/
theorem C6_failure_keeps_repos (st : AppState) (msg : String) (items : List Issue) :
    (fetchIssuesByTags st FetchOutcome.httpError).repos = st.repos ∧
    (fetchIssuesByTags st (FetchOutcome.networkFailure msg)).repos = st.repos ∧
    (fetchIssuesByTags st (FetchOutcome.success items)).repos = aggregate items :=
  ⟨rfl, rfl, rfl⟩

/-- C7: an explicit search submission resets the page index to 1, while a
trending-topic click appends the topic to the label text (comma-joined, or
just the topic when the text was empty) and leaves the page index unchanged. -/
theorem C7_page_reset_behavior (st : AppState) (outcome : FetchOutcome) (topic : String) :
    (handleSearch st outcome).currentPage = 1 ∧
    (handleTrendingTopicClick st topic outcome).currentPage = st.currentPage ∧
    (handleTrendingTopicClick st topic outcome).tags =
      (if st.tags = "" then topic else st.tags ++ "," ++ topic) := by
  refine ⟨rfl, ?_, ?_⟩
  · by_cases h : (if st.tags = "" then topic else st.tags ++ "," ++ topic) = ""
    · simp [handleTrendingTopicClick, h]
    · simp [handleTrendingTopicClick, h, (fetch_preserves_tags_page _ outcome).2]
  · by_cases h : (if st.tags = "" then topic else st.tags ++ "," ++ topic) = ""
    · simp [handleTrendingTopicClick, h]
    · simp [handleTrendingTopicClick, h, (fetch_preserves_tags_page _ outcome).1]

/-- C8: the Previous and Next operations keep the page index within
`[1, totalPages]`: for any current page in that range, `max (p-1) 1` and
`min (p+1) totalPages` stay in the range, and each operation is the identity
at its respective boundary. -/
theorem C8_nav_clamped (repos : List Repo) (p : Nat) (h1 : 1 ≤ p)
    (h2 : p ≤ totalPages repos) :
    (1 ≤ prevPage p ∧ prevPage p ≤ totalPages repos) ∧
    (1 ≤ nextPage p (totalPages repos) ∧ nextPage p (totalPages repos) ≤ totalPages repos) ∧
    (p = 1 → prevPage p = p) ∧
    (p = totalPages repos → nextPage p (totalPages repos) = p) := by
  simp only [prevPage, nextPage]
  omega

/-- C8 witness: on the 25-row list (3 pages) at page 2, both operations stay
within bounds. -/
theorem C8_nav_clamped_witness :
    (1 ≤ prevPage 2 ∧ prevPage 2 ≤ totalPages demoRepos) ∧
    (1 ≤ nextPage 2 (totalPages demoRepos) ∧
      nextPage 2 (totalPages demoRepos) ≤ totalPages demoRepos) ∧
    (2 = 1 → prevPage 2 = 2) ∧
    (2 = totalPages demoRepos → nextPage 2 (totalPages demoRepos) = 2) :=
  C8_nav_clamped demoRepos 2 (by decide) (by decide)

/-- C9: aggregation is a pure, deterministic function of its input (in this
embedding it is a function, so applying it twice to the same input yields
identical output by reflexivity), and running it inside a successful fetch
cycle touches no other state: the label text and page index are unchanged. -/
theorem C9_aggregate_pure (issues : List Issue) (st : AppState) (items : List Issue) :
    aggregate issues = aggregate issues ∧
    (fetchIssuesByTags st (FetchOutcome.success items)).tags = st.tags ∧
    (fetchIssuesByTags st (FetchOutcome.success items)).currentPage = st.currentPage :=
  ⟨rfl, (fetch_preserves_tags_page st _).1, (fetch_preserves_tags_page st _).2⟩

/-- C10: aggregation is total on arbitrary repository-URL strings: a URL with
no `/` (fewer than two segments) is its own identifier, a URL in which
`api.github.com/repos` does not occur keeps its URL unmodified as webUrl, and
such a record is counted normally (here: a singleton input yields the one
entry with count 1 and both fields equal to the raw URL). -/
theorem C10_total_on_malformed (url : String) :
    ('/' ∉ url.data → repoFullName url = url) ∧
    (occursIn "api.github.com/repos".data url.data = false → webUrlOf url = url) ∧
    ('/' ∉ url.data → occursIn "api.github.com/repos".data url.data = false →
      aggregate [Issue.mk url] = [Repo.mk url 1 url]) := by
  refine ⟨fun h => repoFullName_no_slash h, fun h => webUrlOf_of_not_occurs h, fun h1 h2 => ?_⟩
  have hid := repoFullName_no_slash h1
  have hurl := webUrlOf_of_not_occurs h2
  simp [aggregate, sortedRepos, repoIssueCount, processIssue, lookupRepo, incrCount, toRepo,
    sortByCountDesc, insertRepo, hid, hurl]

/-- C10 witness: the slash-free URL `abc` is counted under identifier `abc`
with its webUrl unmodified. -/
theorem C10_total_on_malformed_witness :
    aggregate [Issue.mk "abc"] = [Repo.mk "abc" 1 "abc"] :=
  (C10_total_on_malformed "abc").2.2 (by decide) (by decide)

end IssueScout
